import Mathlib

/-!
Verification of the numerical routines in the Aiyagari teaching notebook
(`ta_sessions/5_aiyagari.ipynb`): the Rouwenhorst discretization of a
Gaussian AR(1) process, the Cobb-Douglas factor-price formulas, and the
aggregation helper.  Python floats are modelled by real numbers; numpy
matrices of size N are modelled as functions on natural-number indices,
meaningful on indices below N.
-/

noncomputable section

open Finset

/-- The parameter dictionary `param` of the notebook, as an immutable record
(keys in source order: alpha, beta, gamma, phi, mu, rho, sigma, kMin, kMax,
kNum, lNum, kappa). -/
structure Param where
  alpha : ℝ
  beta : ℝ
  gamma : ℝ
  phi : ℝ
  mu : ℝ
  rho : ℝ
  sigma : ℝ
  kMin : ℝ
  kMax : ℝ
  kNum : ℕ
  lNum : ℕ
  kappa : ℝ

/-- The concrete parameter values set in the notebook. -/
def param : Param :=
  Param.mk 0.5 0.96 1.0 1.0 0.0 0.53 0.296 0.0 40.0 100 9 0.2

/-- One recursive step of `compute_P` inside `rouwenhorst`: from the matrix
`Q` of size `N` build the matrix of size `N + 1`.  The four guarded terms are
the numpy block embeddings `A[:N-1,:N-1] += Q`, `A[1:N,1:N] += Q`,
`B[:N-1,1:N] += Q`, `B[1:N,:N-1] += Q` (with this function's `N` equal to the
Python `N - 1`), combined as `p * A + (1 - p) * B`; the trailing division is
the halving `P[1:-1, :] /= 2` of the interior rows. -/
def rouwStep (p : ℝ) (N : ℕ) (Q : ℕ → ℕ → ℝ) (i j : ℕ) : ℝ :=
  (p * ((if i < N ∧ j < N then Q i j else 0)
        + (if 1 ≤ i ∧ 1 ≤ j then Q (i - 1) (j - 1) else 0))
    + (1 - p) * ((if i < N ∧ 1 ≤ j then Q i (j - 1) else 0)
        + (if 1 ≤ i ∧ j < N then Q (i - 1) j else 0)))
  / (if 1 ≤ i ∧ i < N then 2 else 1)

/-- The recursive transition-matrix constructor `compute_P` of `rouwenhorst`.
For `N = 2` it is the base matrix `[[p, 1-p], [1-p, p]]`; for `N ≥ 3` it is
one `rouwStep` applied to the matrix of size `N - 1`.  The Python function
never returns for `N < 2` (unbounded recursion); those sizes carry junk
values here and are excluded from every theorem. -/
def compute_P (p : ℝ) : ℕ → ℕ → ℕ → ℝ
  | 0 => fun _ _ => 0
  | 1 => fun _ _ => 0
  | 2 => fun i j => if i = j then p else 1 - p
  | N + 3 => rouwStep p (N + 2) (compute_P p (N + 2))

/-- Fuel-indexed evaluator of the recursion of `compute_P`, mirroring the
Python call tree call-for-call: each recursive call `compute_P(p, N-1)`
consumes one unit of fuel, and running out of fuel (as the Python recursion
does for `N < 2`, where the base case `N == 2` is never reached) yields
`none`. -/
def compute_P_fuel (p : ℝ) : ℕ → ℕ → Option (ℕ → ℕ → ℝ)
  | 0, _ => none
  | fuel + 1, N =>
    if N = 2 then some (fun i j => if i = j then p else 1 - p)
    else
      match compute_P_fuel p fuel (N - 1) with
      | none => none
      | some Q => some (rouwStep p (N - 1) Q)

/-- The half-width `f = sqrt(N-1) * (sigma / sqrt(1 - rho^2))` of the state
grid in `rouwenhorst`. -/
def rouw_f (N : ℕ) (rho sigma : ℝ) : ℝ :=
  Real.sqrt ((N : ℝ) - 1) * (sigma / Real.sqrt (1 - rho ^ 2))

/-- The state grid `s = np.linspace(-f, f, N) + mu` of `rouwenhorst`: the
`k`-th of `N` evenly spaced points from `-f` to `f`, shifted by `mu`. -/
def rouw_s (N : ℕ) (mu rho sigma : ℝ) (k : ℕ) : ℝ :=
  -(rouw_f N rho sigma) + (k : ℝ) * (2 * rouw_f N rho sigma / ((N : ℝ) - 1)) + mu

/-- The function `rouwenhorst(N, mu, rho, sigma)`: returns the pair of the
state grid `s` and the transition matrix `P = compute_P((1 + rho)/2, N)`. -/
def rouwenhorst (N : ℕ) (mu rho sigma : ℝ) : (ℕ → ℝ) × (ℕ → ℕ → ℝ) :=
  (rouw_s N mu rho sigma, compute_P ((1 + rho) / 2) N)

/-- The function `factor_prices(K, L, param)`: `r = a * (K/L)^(a-1)` and
`w = (1-a) * (K/L)^a` with `a = param['alpha']`, using real exponentiation. -/
def factor_prices (K L : ℝ) (p : Param) : ℝ × ℝ :=
  (p.alpha * (K / L) ^ (p.alpha - 1), (1 - p.alpha) * (K / L) ^ p.alpha)

/-- The inner product `dist @ states` of two length-`n` vectors. -/
def dot (n : ℕ) (x y : ℕ → ℝ) : ℝ := ∑ i ∈ Finset.range n, x i * y i

/-- The function `aggregate_kl(states, dist, param)`: both components are the
same inner product `dist @ states` (the source marks both lines `# wrong`). -/
def aggregate_kl (n : ℕ) (states dist : ℕ → ℝ) (p : Param) : ℝ × ℝ :=
  (dot n dist states, dot n dist states)

/-- The function `cash_in_hand(k, l, r, w) = w * l + (1 + r) * k`. -/
def cash_in_hand (k l r w : ℝ) : ℝ := w * l + (1 + r) * k

/-- Names bound at the notebook's module scope when `solve_pfi` is defined:
the four imports and the definitions of the preceding cells. -/
def notebook_globals : List String :=
  ["np", "la", "ip", "plt", "rouwenhorst", "factor_prices", "aggregate_kl",
   "cash_in_hand", "param", "kMin", "kMax", "kNum", "k", "lLog", "l", "kk",
   "ll", "solve_pfi"]

/-- Global (free) names referenced by the body of `solve_pfi`, in order of
first use: `cash_in_hand`, `state`, `euler`, `la`, `cs`. -/
def solve_pfi_free_names : List String :=
  ["cash_in_hand", "state", "euler", "la", "cs"]

end

/-! ### Small summation helpers for the row sums of `rouwStep` -/

theorem sum_if_lt (N : ℕ) (g : ℕ → ℝ) :
    ∑ j ∈ Finset.range (N + 1), (if j < N then g j else 0)
      = ∑ j ∈ Finset.range N, g j := by
  rw [Finset.sum_range_succ, if_neg (lt_irrefl N), add_zero]
  exact Finset.sum_congr rfl fun x hx => if_pos (Finset.mem_range.mp hx)

theorem sum_if_one_le (N : ℕ) (g : ℕ → ℝ) :
    ∑ j ∈ Finset.range (N + 1), (if 1 ≤ j then g (j - 1) else 0)
      = ∑ j ∈ Finset.range N, g j := by
  rw [Finset.sum_range_succ']
  simp

/-! ### Row-stochasticity of one `rouwStep` -/

theorem rouwStep_rowsum (p : ℝ) (N : ℕ) (hN : 1 ≤ N) (Q : ℕ → ℕ → ℝ)
    (hrow : ∀ i, i < N → ∑ j ∈ Finset.range N, Q i j = 1)
    (i : ℕ) (hi : i < N + 1) :
    ∑ j ∈ Finset.range (N + 1), rouwStep p N Q i j = 1 := by
  have e1 : ∑ j ∈ Finset.range (N + 1), (if i < N ∧ j < N then Q i j else 0)
      = if i < N then (1 : ℝ) else 0 := by
    by_cases h : i < N
    · simp only [h, true_and, if_pos]
      rw [sum_if_lt N (Q i)]
      exact hrow i h
    · simp [h]
  have e2 : ∑ j ∈ Finset.range (N + 1),
      (if 1 ≤ i ∧ 1 ≤ j then Q (i - 1) (j - 1) else 0)
      = if 1 ≤ i then (1 : ℝ) else 0 := by
    by_cases h : 1 ≤ i
    · simp only [h, true_and, if_pos]
      rw [sum_if_one_le N (Q (i - 1))]
      exact hrow (i - 1) (by omega)
    · simp [h]
  have e3 : ∑ j ∈ Finset.range (N + 1),
      (if i < N ∧ 1 ≤ j then Q i (j - 1) else 0)
      = if i < N then (1 : ℝ) else 0 := by
    by_cases h : i < N
    · simp only [h, true_and, if_pos]
      rw [sum_if_one_le N (Q i)]
      exact hrow i h
    · simp [h]
  have e4 : ∑ j ∈ Finset.range (N + 1),
      (if 1 ≤ i ∧ j < N then Q (i - 1) j else 0)
      = if 1 ≤ i then (1 : ℝ) else 0 := by
    by_cases h : 1 ≤ i
    · simp only [h, true_and, if_pos]
      rw [sum_if_lt N (Q (i - 1))]
      exact hrow (i - 1) (by omega)
    · simp [h]
  unfold rouwStep
  rw [← Finset.sum_div, Finset.sum_add_distrib, ← Finset.mul_sum,
    ← Finset.mul_sum, Finset.sum_add_distrib, Finset.sum_add_distrib,
    e1, e2, e3, e4]
  by_cases h1 : 1 ≤ i <;> by_cases h2 : i < N
  · simp only [h1, h2, if_pos, and_self]
    ring
  · simp only [h1, h2, if_pos, if_neg, and_false, false_and, and_true]
    simp only [h1, true_and, h2, if_neg, if_pos, if_false]
    norm_num
  · have : i = 0 := by omega
    subst this
    simp only [h2, if_pos]
    norm_num at h1 ⊢
  · omega

/-! ### Entry bounds of one `rouwStep` -/

theorem rouwStep_nonneg (p : ℝ) (hp0 : 0 ≤ p) (hp1 : p ≤ 1) (N : ℕ)
    (Q : ℕ → ℕ → ℝ) (hQ : ∀ i j, i < N → j < N → 0 ≤ Q i j)
    (i j : ℕ) (hi : i < N + 1) (hj : j < N + 1) :
    0 ≤ rouwStep p N Q i j := by
  have t1 : 0 ≤ (if i < N ∧ j < N then Q i j else 0) := by
    split_ifs with h
    · exact hQ i j h.1 h.2
    · exact le_rfl
  have t2 : 0 ≤ (if 1 ≤ i ∧ 1 ≤ j then Q (i - 1) (j - 1) else 0) := by
    split_ifs with h
    · exact hQ (i - 1) (j - 1) (by omega) (by omega)
    · exact le_rfl
  have t3 : 0 ≤ (if i < N ∧ 1 ≤ j then Q i (j - 1) else 0) := by
    split_ifs with h
    · exact hQ i (j - 1) h.1 (by omega)
    · exact le_rfl
  have t4 : 0 ≤ (if 1 ≤ i ∧ j < N then Q (i - 1) j else 0) := by
    split_ifs with h
    · exact hQ (i - 1) j (by omega) h.2
    · exact le_rfl
  have hd : (0 : ℝ) < (if 1 ≤ i ∧ i < N then 2 else 1) := by
    split_ifs <;> norm_num
  exact div_nonneg
    (add_nonneg (mul_nonneg hp0 (add_nonneg t1 t2))
      (mul_nonneg (by linarith) (add_nonneg t3 t4))) hd.le

theorem rouwStep_le_one (p : ℝ) (hp0 : 0 ≤ p) (hp1 : p ≤ 1) (N : ℕ)
    (Q : ℕ → ℕ → ℝ) (hQ : ∀ i j, i < N → j < N → Q i j ≤ 1)
    (i j : ℕ) (hi : i < N + 1) (hj : j < N + 1) :
    rouwStep p N Q i j ≤ 1 := by
  set d : ℝ := if 1 ≤ i ∧ i < N then 2 else 1 with hd_def
  have b1 : (if i < N ∧ j < N then Q i j else 0)
      ≤ if i < N then (1 : ℝ) else 0 := by
    by_cases h : i < N
    · simp only [h, true_and, if_pos]
      split_ifs with h'
      · exact hQ i j h h'
      · norm_num
    · simp [h]
  have b2 : (if 1 ≤ i ∧ 1 ≤ j then Q (i - 1) (j - 1) else 0)
      ≤ if 1 ≤ i then (1 : ℝ) else 0 := by
    by_cases h : 1 ≤ i
    · simp only [h, true_and, if_pos]
      split_ifs with h'
      · exact hQ (i - 1) (j - 1) (by omega) (by omega)
      · norm_num
    · simp [h]
  have b3 : (if i < N ∧ 1 ≤ j then Q i (j - 1) else 0)
      ≤ if i < N then (1 : ℝ) else 0 := by
    by_cases h : i < N
    · simp only [h, true_and, if_pos]
      split_ifs with h'
      · exact hQ i (j - 1) h (by omega)
      · norm_num
    · simp [h]
  have b4 : (if 1 ≤ i ∧ j < N then Q (i - 1) j else 0)
      ≤ if 1 ≤ i then (1 : ℝ) else 0 := by
    by_cases h : 1 ≤ i
    · simp only [h, true_and, if_pos]
      split_ifs with h'
      · exact hQ (i - 1) j (by omega) h'
      · norm_num
    · simp [h]
  have hS : (if i < N then (1 : ℝ) else 0) + (if 1 ≤ i then (1 : ℝ) else 0)
      ≤ d := by
    rw [hd_def]
    by_cases h1 : 1 ≤ i <;> by_cases h2 : i < N <;>
      simp [h1, h2] <;> norm_num
  have hd0 : (0 : ℝ) < d := by
    rw [hd_def]
    split_ifs <;> norm_num
  have hnum : p * ((if i < N ∧ j < N then Q i j else 0)
        + (if 1 ≤ i ∧ 1 ≤ j then Q (i - 1) (j - 1) else 0))
      + (1 - p) * ((if i < N ∧ 1 ≤ j then Q i (j - 1) else 0)
        + (if 1 ≤ i ∧ j < N then Q (i - 1) j else 0)) ≤ d := by
    have hA := add_le_add b1 b2
    have hB := add_le_add b3 b4
    nlinarith [hA, hB, hS, hp0, hp1]
  rw [rouwStep, ← hd_def, div_le_one hd0]
  exact hnum

/-! ### The unfolding equation of `compute_P` above the base case -/

theorem compute_P_succ (p : ℝ) (N : ℕ) (hN : 2 ≤ N) :
    compute_P p (N + 1) = rouwStep p N (compute_P p N) := by
  obtain ⟨M, rfl⟩ : ∃ M, N = M + 2 := ⟨N - 2, by omega⟩
  rfl

/-- Row sums and entry bounds of `compute_P`, by induction on the size. -/
theorem compute_P_stochastic (p : ℝ) (hp0 : 0 ≤ p) (hp1 : p ≤ 1)
    (N : ℕ) (hN : 2 ≤ N) :
    (∀ i, i < N → ∑ j ∈ Finset.range N, compute_P p N i j = 1)
    ∧ (∀ i j, i < N → j < N →
        0 ≤ compute_P p N i j ∧ compute_P p N i j ≤ 1) := by
  induction N, hN using Nat.le_induction with
  | base =>
    constructor
    · intro i hi
      interval_cases i <;> simp [compute_P, Finset.sum_range_succ]
    · intro i j hi hj
      interval_cases i <;> interval_cases j <;>
        · simp only [compute_P]
          norm_num
          constructor <;> linarith
  | succ N hN ih =>
    rw [compute_P_succ p N hN]
    refine ⟨fun i hi => rouwStep_rowsum p N (by omega) _ ih.1 i hi,
      fun i j hi hj =>
        ⟨rouwStep_nonneg p hp0 hp1 N _ (fun a b ha hb => (ih.2 a b ha hb).1) i j hi hj,
         rouwStep_le_one p hp0 hp1 N _ (fun a b ha hb => (ih.2 a b ha hb).2) i j hi hj⟩⟩

/-- The fuel-indexed recursion reaches the base case and agrees with
`compute_P` whenever the size is at least 2 and the fuel covers the
recursion depth. -/
theorem compute_P_fuel_spec (p : ℝ) :
    ∀ fuel N, 2 ≤ N → N - 1 ≤ fuel →
      compute_P_fuel p fuel N = some (compute_P p N) := by
  intro fuel
  induction fuel with
  | zero => intro N hN hfuel; omega
  | succ fuel ih =>
    intro N hN hfuel
    by_cases h2 : N = 2
    · subst h2
      rfl
    · have h3 : 3 ≤ N := by omega
      rw [compute_P_fuel, if_neg h2, ih (N - 1) (by omega) (by omega)]
      obtain ⟨M, rfl⟩ : ∃ M, N = M + 3 := ⟨N - 3, by omega⟩
      rfl

/-- Endpoints and spacing of the state grid, shared by several results. -/
theorem rouw_s_endpoints (N : ℕ) (mu rho sigma : ℝ) (hN : 2 ≤ N) :
    rouw_s N mu rho sigma 0 = mu - rouw_f N rho sigma
    ∧ rouw_s N mu rho sigma (N - 1) = mu + rouw_f N rho sigma
    ∧ ∀ k, k + 1 < N →
        rouw_s N mu rho sigma (k + 1) - rouw_s N mu rho sigma k
          = 2 * rouw_f N rho sigma / ((N : ℝ) - 1) := by
  have hN2 : (2 : ℝ) ≤ (N : ℝ) := by exact_mod_cast hN
  have hne : (N : ℝ) - 1 ≠ 0 := by linarith
  refine ⟨?_, ?_, ?_⟩
  · simp [rouw_s]
    ring
  · have hcast : ((N - 1 : ℕ) : ℝ) = (N : ℝ) - 1 := by
      have h1 : 1 ≤ N := by omega
      push_cast [h1]
      ring
    rw [rouw_s, hcast]
    field_simp
    ring
  · intro k hk
    rw [rouw_s, rouw_s]
    push_cast
    ring

/-! ### Claim theorems -/

/-- Claim C1: for every state count `N ≥ 2` and persistence `rho` with
`|rho| < 1` (so `p = (1 + rho)/2` lies in `[0, 1]`), the transition matrix
returned by `rouwenhorst` is row-stochastic: every row sums to 1 and every
entry lies in `[0, 1]`. -/
theorem rouwenhorst_row_stochastic (N : ℕ) (mu rho sigma : ℝ)
    (hN : 2 ≤ N) (hrho : |rho| < 1) :
    (∀ i, i < N →
      ∑ j ∈ Finset.range N, (rouwenhorst N mu rho sigma).2 i j = 1)
    ∧ ∀ i j, i < N → j < N →
        0 ≤ (rouwenhorst N mu rho sigma).2 i j
        ∧ (rouwenhorst N mu rho sigma).2 i j ≤ 1 := by
  have h := abs_lt.mp hrho
  exact compute_P_stochastic ((1 + rho) / 2) (by linarith [h.1]) (by linarith [h.2]) N hN

/-- Claim C1 witness: the theorem applied at `N = 3`, `rho = 0`, `sigma = 1`. -/
theorem rouwenhorst_row_stochastic_witness :
    2 ≤ 3 ∧ |(0 : ℝ)| < 1
    ∧ ((∀ i, i < 3 →
        ∑ j ∈ Finset.range 3, (rouwenhorst 3 0 0 1).2 i j = 1)
      ∧ ∀ i j, i < 3 → j < 3 →
          0 ≤ (rouwenhorst 3 0 0 1).2 i j ∧ (rouwenhorst 3 0 0 1).2 i j ≤ 1) :=
  ⟨by norm_num, by simp,
    rouwenhorst_row_stochastic 3 0 0 1 (by norm_num) (by simp)⟩

/-- Claim C2: for `N = 2` the transition matrix returned by `rouwenhorst` is
exactly `[[p, 1-p], [1-p, p]]` with `p = (1 + rho)/2`, produced in the
recursion's base case with one call and no further recursion (fuel 1
suffices); in particular for `rho = 0.5` it is `[[0.75, 0.25], [0.25, 0.75]]`. -/
theorem rouwenhorst_base_case (mu rho sigma : ℝ) :
    ((rouwenhorst 2 mu rho sigma).2 0 0 = (1 + rho) / 2
      ∧ (rouwenhorst 2 mu rho sigma).2 0 1 = 1 - (1 + rho) / 2
      ∧ (rouwenhorst 2 mu rho sigma).2 1 0 = 1 - (1 + rho) / 2
      ∧ (rouwenhorst 2 mu rho sigma).2 1 1 = (1 + rho) / 2)
    ∧ compute_P_fuel ((1 + rho) / 2) 1 2 = some (compute_P ((1 + rho) / 2) 2)
    ∧ ((rouwenhorst 2 0 (1/2) 1).2 0 0 = 3/4
      ∧ (rouwenhorst 2 0 (1/2) 1).2 0 1 = 1/4
      ∧ (rouwenhorst 2 0 (1/2) 1).2 1 0 = 1/4
      ∧ (rouwenhorst 2 0 (1/2) 1).2 1 1 = 3/4) := by
  refine ⟨⟨?_, ?_, ?_, ?_⟩, rfl, ?_, ?_, ?_, ?_⟩ <;>
    norm_num [rouwenhorst, compute_P]

/-- Claim C3: for every `N ≥ 2`, `|rho| < 1`, `sigma ≥ 0` and mean `mu`, the
state values returned by `rouwenhorst` are `N` evenly spaced points over
`[mu - f, mu + f]` with `f = sqrt(N-1) * sigma / sqrt(1 - rho^2) ≥ 0`: the
first point is `mu - f`, the last is `mu + f`, and consecutive points differ
by `2 f / (N - 1)`. -/
theorem rouwenhorst_states_spec (N : ℕ) (mu rho sigma : ℝ)
    (hN : 2 ≤ N) (hrho : |rho| < 1) (hsigma : 0 ≤ sigma) :
    (rouwenhorst N mu rho sigma).1 0 = mu - rouw_f N rho sigma
    ∧ (rouwenhorst N mu rho sigma).1 (N - 1) = mu + rouw_f N rho sigma
    ∧ (∀ k, k + 1 < N →
        (rouwenhorst N mu rho sigma).1 (k + 1) - (rouwenhorst N mu rho sigma).1 k
          = 2 * rouw_f N rho sigma / ((N : ℝ) - 1))
    ∧ 0 ≤ rouw_f N rho sigma := by
  obtain ⟨h0, hlast, hstep⟩ := rouw_s_endpoints N mu rho sigma hN
  exact ⟨h0, hlast, hstep,
    mul_nonneg (Real.sqrt_nonneg _) (div_nonneg hsigma (Real.sqrt_nonneg _))⟩

/-- Claim C3 witness: the theorem applied at `N = 2`, `mu = 0`, `rho = 0`,
`sigma = 1`. -/
theorem rouwenhorst_states_spec_witness :
    2 ≤ 2 ∧ |(0 : ℝ)| < 1 ∧ (0 : ℝ) ≤ 1
    ∧ ((rouwenhorst 2 0 0 1).1 0 = 0 - rouw_f 2 0 1
      ∧ (rouwenhorst 2 0 0 1).1 (2 - 1) = 0 + rouw_f 2 0 1
      ∧ (∀ k, k + 1 < 2 →
          (rouwenhorst 2 0 0 1).1 (k + 1) - (rouwenhorst 2 0 0 1).1 k
            = 2 * rouw_f 2 0 1 / ((2 : ℝ) - 1))
      ∧ 0 ≤ rouw_f 2 0 1) := by
  refine ⟨by norm_num, by simp, by norm_num, ?_⟩
  have h := rouwenhorst_states_spec 2 0 0 1 (by norm_num) (by simp) (by norm_num)
  simpa using h

/-- Claim C9: for every `N ≥ 2`, the recursive construction `compute_P`
inside `rouwenhorst` terminates: the recursion strictly decreases `N`, and
with fuel covering the recursion depth (`N - 1` calls suffice) the
fuel-indexed evaluator reaches the base case `N = 2` and returns the
transition matrix of `rouwenhorst`. -/
theorem rouwenhorst_compute_P_terminates (N : ℕ) (mu rho sigma : ℝ)
    (fuel : ℕ) (hN : 2 ≤ N) (hfuel : N - 1 ≤ fuel) :
    compute_P_fuel ((1 + rho) / 2) fuel N = some ((rouwenhorst N mu rho sigma).2) :=
  compute_P_fuel_spec ((1 + rho) / 2) fuel N hN hfuel

/-- Claim C9 witness: the theorem applied at `N = 5` with fuel 4. -/
theorem rouwenhorst_compute_P_terminates_witness :
    2 ≤ 5 ∧ 5 - 1 ≤ 4
    ∧ compute_P_fuel ((1 + 0) / 2) 4 5 = some ((rouwenhorst 5 0 0 1).2) :=
  ⟨by norm_num, by norm_num,
    rouwenhorst_compute_P_terminates 5 0 0 1 4 (by norm_num) (by norm_num)⟩

/-- Claim C4 counterexample: at `N = 2`, `mu = 0`, `rho = 0`, `sigma = -1`
(so `sigma < 0`), `rouwenhorst` raises no error and returns a complete
MarkovChain: the states `[1, -1]` (the grid mirrored by the negative sigma)
and the matrix `[[1/2, 1/2], [1/2, 1/2]]`, contradicting the claim that it
fails with InvalidParameter and returns nothing on such inputs. -/
theorem rouwenhorst_no_validation_counterexample :
    (rouwenhorst 2 0 0 (-1)).1 0 = 1 ∧ (rouwenhorst 2 0 0 (-1)).1 1 = -1
    ∧ (rouwenhorst 2 0 0 (-1)).2 0 0 = 1/2 ∧ (rouwenhorst 2 0 0 (-1)).2 0 1 = 1/2
    ∧ (rouwenhorst 2 0 0 (-1)).2 1 0 = 1/2 ∧ (rouwenhorst 2 0 0 (-1)).2 1 1 = 1/2 := by
  refine ⟨?_, ?_, ?_, ?_, ?_, ?_⟩ <;>
    norm_num [rouwenhorst, rouw_s, rouw_f, compute_P, Real.sqrt_one]

/-- Claim C4 amended: `rouwenhorst` performs no parameter validation and has
no InvalidParameter error path.  For `sigma < 0` (with `N ≥ 2`, `|rho| < 1`)
it still returns a MarkovChain, with a non-positive half-width `f` so that
the grid runs downward from `mu - f ≥ mu` to `mu + f ≤ mu`, and with
row-stochastic transition matrix; for `N < 2` the recursion never returns
(the fuel-indexed evaluator yields `none` for every amount of fuel). -/
theorem rouwenhorst_no_validation (N : ℕ) (mu rho sigma : ℝ)
    (hN : 2 ≤ N) (hrho : |rho| < 1) (hsigma : sigma < 0) :
    rouw_f N rho sigma ≤ 0
    ∧ (rouwenhorst N mu rho sigma).1 0 = mu - rouw_f N rho sigma
    ∧ (rouwenhorst N mu rho sigma).1 (N - 1) = mu + rouw_f N rho sigma
    ∧ (∀ i, i < N →
        ∑ j ∈ Finset.range N, (rouwenhorst N mu rho sigma).2 i j = 1)
    ∧ ∀ fuel, compute_P_fuel ((1 + rho) / 2) fuel 1 = none := by
  have h := abs_lt.mp hrho
  obtain ⟨h0, hlast, _⟩ := rouw_s_endpoints N mu rho sigma hN
  have hfuel1 : ∀ fuel, compute_P_fuel ((1 + rho) / 2) fuel 0 = none := by
    intro fuel
    induction fuel with
    | zero => rfl
    | succ fuel ih => rw [compute_P_fuel, if_neg (by norm_num)]; rw [ih]
  refine ⟨?_, h0, hlast, ?_, ?_⟩
  · have hd : sigma / Real.sqrt (1 - rho ^ 2) ≤ 0 :=
      div_nonpos_iff.mpr (Or.inr ⟨hsigma.le, Real.sqrt_nonneg _⟩)
    exact mul_nonpos_iff.mpr (Or.inl ⟨Real.sqrt_nonneg _, hd⟩)
  · exact (compute_P_stochastic ((1 + rho) / 2)
      (by linarith [h.1]) (by linarith [h.2]) N hN).1
  · intro fuel
    cases fuel with
    | zero => rfl
    | succ fuel =>
      rw [compute_P_fuel, if_neg (by norm_num)]
      rw [hfuel1 fuel]

/-- Claim C4 amended witness: the amended theorem applied at `N = 2`,
`mu = 0`, `rho = 0`, `sigma = -1`. -/
theorem rouwenhorst_no_validation_witness :
    2 ≤ 2 ∧ |(0 : ℝ)| < 1 ∧ (-1 : ℝ) < 0
    ∧ (rouw_f 2 0 (-1) ≤ 0
      ∧ (rouwenhorst 2 0 0 (-1)).1 0 = 0 - rouw_f 2 0 (-1)
      ∧ (rouwenhorst 2 0 0 (-1)).1 (2 - 1) = 0 + rouw_f 2 0 (-1)
      ∧ (∀ i, i < 2 →
          ∑ j ∈ Finset.range 2, (rouwenhorst 2 0 0 (-1)).2 i j = 1)
      ∧ ∀ fuel, compute_P_fuel ((1 + 0) / 2) fuel 1 = none) :=
  ⟨by norm_num, by simp, by norm_num,
    rouwenhorst_no_validation 2 0 0 (-1) (by norm_num) (by simp) (by norm_num)⟩

/-- Claim C5: for `K > 0`, `L > 0` and `alpha ∈ (0, 1)`, `factor_prices`
returns `r = alpha * (K/L)^(alpha - 1)` and `w = (1 - alpha) * (K/L)^alpha`;
in particular with the notebook parameters (`alpha = 0.5`) and `K = L = 1`
it returns `r = w = 1/2`. -/
theorem factor_prices_spec (K L : ℝ) (p : Param) (hK : 0 < K) (hL : 0 < L)
    (ha0 : 0 < p.alpha) (ha1 : p.alpha < 1) :
    (factor_prices K L p).1 = p.alpha * (K / L) ^ (p.alpha - 1)
    ∧ (factor_prices K L p).2 = (1 - p.alpha) * (K / L) ^ p.alpha
    ∧ factor_prices 1 1 param = (1/2, 1/2) := by
  refine ⟨rfl, rfl, ?_⟩
  unfold factor_prices param
  norm_num [Real.one_rpow]

/-- Claim C5 witness: the theorem applied at `K = L = 1` with the notebook
parameters. -/
theorem factor_prices_spec_witness :
    (0 : ℝ) < 1 ∧ 0 < param.alpha ∧ param.alpha < 1
    ∧ ((factor_prices 1 1 param).1 = param.alpha * ((1 : ℝ) / 1) ^ (param.alpha - 1)
      ∧ (factor_prices 1 1 param).2 = (1 - param.alpha) * ((1 : ℝ) / 1) ^ param.alpha
      ∧ factor_prices 1 1 param = (1/2, 1/2)) :=
  ⟨by norm_num, by norm_num [param], by norm_num [param],
    factor_prices_spec 1 1 param (by norm_num) (by norm_num)
      (by norm_num [param]) (by norm_num [param])⟩

/-- Claim C6 counterexample: at `K = -1 ≤ 0`, `L = -1 ≤ 0` with the notebook
parameters, `factor_prices` raises no error and returns the well-defined
prices `(1/2, 1/2)` (the ratio `K/L = 1` hides the sign), contradicting the
claim that it fails with InvalidParameter and returns no prices whenever
`K ≤ 0` or `L ≤ 0`. -/
theorem factor_prices_no_validation_counterexample :
    factor_prices (-1) (-1) param = (1/2, 1/2) := by
  unfold factor_prices param
  norm_num [Real.one_rpow]

/-- Claim C6 amended: `factor_prices` performs no validation of `K` or `L`
and has no InvalidParameter error path: it always evaluates the two
closed-form power expressions of the ratio `K/L`, so for `K < 0` and `L < 0`
it returns exactly the prices of the sign-flipped positive input
`(-K, -L)`. -/
theorem factor_prices_no_validation (K L : ℝ) (p : Param)
    (hK : K < 0) (hL : L < 0) :
    factor_prices K L p = factor_prices (-K) (-L) p := by
  unfold factor_prices
  rw [neg_div_neg_eq]

/-- Claim C6 amended witness: the amended theorem applied at `K = L = -1`. -/
theorem factor_prices_no_validation_witness :
    (-1 : ℝ) < 0
    ∧ factor_prices (-1) (-1) param = factor_prices (-(-1)) (-(-1)) param :=
  ⟨by norm_num, factor_prices_no_validation (-1) (-1) param (by norm_num) (by norm_num)⟩

/-- Claim C7: `aggregate_kl` computes both outputs as the same inner product
`dist @ states`, so the returned `K` always equals the returned `L`. -/
theorem aggregate_kl_spec (n : ℕ) (states dist : ℕ → ℝ) (p : Param) :
    aggregate_kl n states dist p
      = (∑ i ∈ Finset.range n, dist i * states i,
         ∑ i ∈ Finset.range n, dist i * states i)
    ∧ (aggregate_kl n states dist p).1 = (aggregate_kl n states dist p).2 :=
  ⟨rfl, rfl⟩

/-- Claim C8: `solve_pfi` cannot report NonConvergence.  Its body references
the global names `state`, `euler` and `cs`, none of which is bound at the
notebook's module scope, so every call fails with a NameError before the
iteration even starts; the while-loop also has no iteration cap and no
error-reporting path. -/
theorem solve_pfi_undefined_names :
    "state" ∈ solve_pfi_free_names ∧ "state" ∉ notebook_globals
    ∧ "euler" ∈ solve_pfi_free_names ∧ "euler" ∉ notebook_globals
    ∧ "cs" ∈ solve_pfi_free_names ∧ "cs" ∉ notebook_globals := by
  refine ⟨?_, ?_, ?_, ?_, ?_, ?_⟩ <;> decide

/-- Claim C10: `factor_prices` is homogeneous of degree zero in `(K, L)`:
scaling both aggregates by any `t > 0` leaves the returned prices unchanged,
because both outputs depend only on the ratio `K/L`. -/
theorem factor_prices_homogeneous (K L t : ℝ) (p : Param)
    (hK : 0 < K) (hL : 0 < L) (ht : 0 < t) :
    factor_prices (t * K) (t * L) p = factor_prices K L p := by
  unfold factor_prices
  rw [mul_div_mul_left K L (ne_of_gt ht)]

/-- Claim C10 witness: the theorem applied at `t = 2`, `K = L = 1` with the
notebook parameters. -/
theorem factor_prices_homogeneous_witness :
    (0 : ℝ) < 1 ∧ (0 : ℝ) < 2
    ∧ factor_prices (2 * 1) (2 * 1) param = factor_prices 1 1 param :=
  ⟨by norm_num, by norm_num,
    factor_prices_homogeneous 1 1 2 param (by norm_num) (by norm_num) (by norm_num)⟩
